import Mathlib

/-!
Verification development for the TTS batch pipeline in `tts_batch.py`.

The script-processing pipeline is embedded shallowly:

* Python strings are Lean `String`s (lists of characters); the ASCII fragment
  of Python's `str.strip`, `str.lower`, `str.upper`, `str.startswith`,
  `str.endswith` is modelled character by character.
* The `csv.reader` rows are `List String` (one entry per `|`-separated cell);
  the dispatcher consumes rows already split into cells.
* Python floats are modelled by `PyFloat`: exact rationals plus the special
  values `inf`, `-inf`, `nan`.  Rounding of decimal literals to binary64 and
  overflow of huge exponents to infinity are not modelled; the finite value
  carried is the exact rational denoted by the literal.
* Side effects (the OpenAI call, ffmpeg invocations, file writes) are
  modelled by data: a produced segment records its sequence index and its
  synthesis inputs, and `make_silence` takes the environment facts it
  depends on (tool present? subprocess succeeded?) as explicit booleans and
  returns the resulting path and file content description in `Except`.
-/

namespace TTS

/-! ## Python string primitives -/

/-- Whitespace characters recognised by Python's `str.strip()` and the regex
class `\s` (ASCII fragment). -/
def isPySpace (c : Char) : Bool :=
  c = ' ' || c = '\t' || c = '\n' || c = '\r' || c = '\x0b' || c = '\x0c'

/-- One step of `dropEndWhile`: prepend `c` to the already-processed tail
`r`, dropping `c` as well when the whole tail was dropped and `c` matches. -/
def dropEndStep (p : Char → Bool) (c : Char) (r : List Char) : List Char :=
  match r with
  | [] => if p c then [] else [c]
  | r => c :: r

/-- Drop the longest run of characters satisfying `p` from the end of a list
(the right half of Python's `str.strip`). -/
def dropEndWhile (p : Char → Bool) : List Char → List Char
  | [] => []
  | c :: cs => dropEndStep p c (dropEndWhile p cs)

/-- Character-list version of Python `str.strip()` (no arguments). -/
def stripChars (l : List Char) : List Char :=
  dropEndWhile isPySpace (l.dropWhile isPySpace)

/-- Python `s.strip()`. -/
def pyStrip (s : String) : String := String.mk (stripChars s.data)

/-- Python `s.lower()` (ASCII fragment). -/
def pyLower (s : String) : String := String.mk (s.data.map Char.toLower)

/-- Python `s.upper()` (ASCII fragment). -/
def pyUpper (s : String) : String := String.mk (s.data.map Char.toUpper)

def isQuote (c : Char) : Bool := c = '"'

/-- Python `s.strip('"')`: remove double quotes from both ends. -/
def stripQuotes (s : String) : String :=
  String.mk (dropEndWhile isQuote (s.data.dropWhile isQuote))

/-- Python `s.startswith(p)`. -/
def pyStartsWith (s p : String) : Bool := p.data.isPrefixOf s.data

/-- Python `s.endswith(p)`. -/
def pyEndsWith (s p : String) : Bool := p.data.isSuffixOf s.data

/-! ## The Python `float` constructor

`float(str)` strips whitespace, accepts an optional sign, the special words
`inf`/`infinity`/`nan` (case-insensitively), or a decimal literal
`digits [. digits] [e [sign] digits]` where each digit group may contain
underscores placed between two digits.  Unicode digits are not modelled. -/

/-- A Python float value: an exact rational, an infinity, or `nan`. -/
inductive PyFloat where
  | finite (q : ℚ)
  | inf
  | ninf
  | nan
deriving DecidableEq, Repr

def digitVal (c : Char) : Nat := c.toNat - 48

/-- Consume `digit | '_' digit` repeatedly, accumulating the value and the
number of digits consumed; an underscore not followed by a digit stops the
scan (and is left in the remainder, making the whole literal malformed). -/
def digitsAux : Nat → Nat → List Char → Nat × Nat × List Char
  | acc, n, '_' :: c :: rest =>
    if c.isDigit then digitsAux (acc * 10 + digitVal c) (n + 1) rest
    else (acc, n, '_' :: c :: rest)
  | acc, n, c :: rest =>
    if c.isDigit then digitsAux (acc * 10 + digitVal c) (n + 1) rest
    else (acc, n, c :: rest)
  | acc, n, [] => (acc, n, [])

/-- A digit group of a Python float literal: it must begin with a digit. -/
def parseDigitpart (l : List Char) : Option (Nat × Nat × List Char) :=
  match l with
  | c :: _ => if c.isDigit then some (digitsAux 0 0 l) else none
  | [] => none

/-- Optional sign; returns (isNegative, rest). -/
def parseSign : List Char → Bool × List Char
  | '+' :: rest => (false, rest)
  | '-' :: rest => (true, rest)
  | l => (false, l)

/-- The mantissa `digits [. [digits]] | . digits` of a float literal,
as an exact rational, together with the unconsumed remainder. -/
def parseMantissa (l : List Char) : Option (ℚ × List Char) :=
  match l with
  | '.' :: rest =>
    match parseDigitpart rest with
    | some (fv, fn, r) => some ((fv : ℚ) / (10 : ℚ) ^ fn, r)
    | none => none
  | _ =>
    match parseDigitpart l with
    | some (iv, _, r1) =>
      match r1 with
      | '.' :: r2 =>
        match parseDigitpart r2 with
        | some (fv, fn, r3) => some ((iv : ℚ) + (fv : ℚ) / (10 : ℚ) ^ fn, r3)
        | none => some ((iv : ℚ), r2)
      | _ => some ((iv : ℚ), r1)
    | none => none

/-- Model of the Python builtin `float(s)`; `none` models `ValueError`. -/
def pythonFloat (s : String) : Option PyFloat :=
  let l := stripChars s.data
  let sgn := parseSign l
  let neg := sgn.1
  let l1 := sgn.2
  let low := l1.map Char.toLower
  if low = ['i', 'n', 'f'] || low = ['i', 'n', 'f', 'i', 'n', 'i', 't', 'y'] then
    some (if neg then PyFloat.ninf else PyFloat.inf)
  else if low = ['n', 'a', 'n'] then
    some PyFloat.nan
  else
    match parseMantissa l1 with
    | none => none
    | some (q, l2) =>
      match l2 with
      | [] => some (PyFloat.finite (if neg then -q else q))
      | e :: l3 =>
        if e = 'e' || e = 'E' then
          let esgn := parseSign l3
          match parseDigitpart esgn.2 with
          | some (ev, _, []) =>
            let ex : ℤ := if esgn.1 then -(ev : ℤ) else (ev : ℤ)
            some (PyFloat.finite ((if neg then -q else q) * (10 : ℚ) ^ ex))
          | _ => none
        else none

/-! ## The pronunciation normalizer (`normalize_text`)

`normalize_text` first runs `re.sub(r"\s+", " ", text).strip()` and then
applies each entry of `PRONUNCIATION_ALIASES` with `re.sub`.  The single
alias pattern is the regex `\bA\.L\.I\.E\.\b` with replacement `Allie`;
its substitution is modelled directly: a left-to-right scan replacing
non-overlapping occurrences of the literal `A.L.I.E.` whose surrounding
positions are regex word boundaries.  (`\b` before the leading `A` holds
iff the previous character is absent or not a word character; `\b` after
the trailing `.` holds iff the next character exists and is a word
character.)  Word characters are `[A-Za-z0-9_]` (ASCII fragment of `\w`). -/

/-- Replace every maximal whitespace run by a single space:
`re.sub(r"\s+", " ", text)`. -/
def collapseRuns : List Char → List Char
  | [] => []
  | [c] => [if isPySpace c then ' ' else c]
  | c :: d :: rest =>
    if isPySpace c && isPySpace d then collapseRuns (d :: rest)
    else (if isPySpace c then ' ' else c) :: collapseRuns (d :: rest)

/-- ASCII fragment of the regex class `\w`. -/
def wordChar (c : Char) : Bool := c.isAlphanum || c = '_'

/-- The literal characters of the pattern `\bA\.L\.I\.E\.\b`. -/
def aliasPat : List Char := ['A', '.', 'L', '.', 'I', '.', 'E', '.']

/-- The replacement string `Allie` of the single pronunciation alias. -/
def aliasRep : List Char := ['A', 'l', 'l', 'i', 'e']

/-- The word boundary before the match: the pattern starts with the word
character `A`, so `\b` holds iff the preceding character is absent or is
not a word character. -/
def boundaryBefore : Option Char → Bool
  | none => true
  | some c => !wordChar c

/-- The word boundary after the match: the pattern ends with the non-word
character `.`, so `\b` holds iff the next character exists and is a word
character. -/
def boundaryAfter : List Char → Bool
  | [] => false
  | c :: _ => wordChar c

/-- Does `\bA\.L\.I\.E\.\b` match at the current scan position?  `prev` is
the character just before the position (`none` at the start of the text). -/
def matchHere (prev : Option Char) (l : List Char) : Bool :=
  boundaryBefore prev && aliasPat.isPrefixOf l && boundaryAfter (l.drop 8)

/-- The scan of `re.sub(r"\bA\.L\.I\.E\.\b", "Allie", ·)`: replace each
non-overlapping match, continuing after its end; `prev` tracks the original
character preceding the scan position for the `\b` test. -/
def subALIEAux (prev : Option Char) (l : List Char) : List Char :=
  match l with
  | [] => []
  | c :: cs =>
    if matchHere prev (c :: cs) then aliasRep ++ subALIEAux (some '.') (cs.drop 7)
    else c :: subALIEAux (some c) cs
termination_by l.length
decreasing_by
  · simp only [List.length_cons, List.length_drop]; omega
  · simp only [List.length_cons]; omega

/-- `re.sub(r"\bA\.L\.I\.E\.\b", "Allie", s)` on whole strings. -/
def subALIE (s : String) : String := String.mk (subALIEAux none s.data)

/-- `PRONUNCIATION_ALIASES`, modelled as the ordered list of the regex
substitutions its (pattern, replacement) entries denote. -/
def PRONUNCIATION_ALIASES : List (String → String) := [subALIE]

/-- `normalize_text`: collapse whitespace runs, strip the ends, then apply
the pronunciation aliases in table order. -/
def normalize_text (s : String) : String :=
  PRONUNCIATION_ALIASES.foldl (fun acc f => f acc)
    (pyStrip (String.mk (collapseRuns s.data)))

/-! ## Static configuration -/

/-- The speaker-to-voice table `VOICE_MAP`, in declaration order. -/
def VOICE_MAP : List (String × String) :=
  [("NARRATOR", "alloy"), ("BECCA", "nova"), ("CHRIS", "verse"),
   ("WU", "cedar"), ("BACKGROUND", "marin"), ("CADOGAN", "ash"),
   ("A.L.I.E.", "nova"), ("MARA", "shimmer"), ("JONAH", "cedar")]

def MODEL : String := "gpt-4o-mini-tts"
def SAMPLE_EXT : String := "wav"
def LOUDNORM : Bool := true
def TARGET_LUFS : Int := -16

/-- `DEFAULT_INTERLINE_PAUSE = 0.25` seconds. -/
def DEFAULT_INTERLINE_PAUSE : ℚ := 1 / 4

/-- `VOICE_MAP.get(speaker.upper(), VOICE_MAP["NARRATOR"])`.  The table
always contains the `NARRATOR` key, so the `getD ""` default of the model
is never reached. -/
def resolveVoice (speaker : String) : String :=
  match VOICE_MAP.lookup (pyUpper speaker) with
  | some v => v
  | none => (VOICE_MAP.lookup "NARRATOR").getD ""

/-! ## Segments and file paths -/

/-- Python `f"{n:05d}"` (for the index values reached here). -/
def zpad5 (n : Nat) : String :=
  String.mk (List.replicate (5 - (Nat.repr n).length) '0' ++ (Nat.repr n).data)

/-- The file name `f"{idx:05d}_silence.{SAMPLE_EXT.lower()}"` used by
`make_silence`. -/
def silencePath (idx : Nat) : String :=
  zpad5 idx ++ "_silence." ++ pyLower SAMPLE_EXT

/-- The file name of a synthesized line (`synth_to_file`): the mp3 is kept
when `SAMPLE_EXT` is `mp3`, otherwise the transcoded wav. -/
def dialoguePath (idx : Nat) (voice : String) : String :=
  zpad5 idx ++ "_" ++ voice ++ "." ++ (if pyLower SAMPLE_EXT = "mp3" then "mp3" else "wav")

/-- One ordered unit of output audio, recording its sequence index and the
inputs that produced it.  A `dialogue` segment carries the text as passed
to `synth_to_file` (normalization happens inside synthesis) and the
resolved voice; a `silence` segment carries its duration in seconds. -/
inductive Segment where
  | dialogue (idx : Nat) (text voice : String)
  | silence (idx : Nat) (seconds : PyFloat)
deriving DecidableEq, Repr

/-- The sequence index a segment was emitted with. -/
def Segment.index : Segment → Nat
  | .dialogue i _ _ => i
  | .silence i _ => i

/-! ## `make_silence` and its failure policy -/

/-- The message of the `RuntimeError` raised by `_check_ffmpeg`. -/
def ffmpegMissingMsg : String := "ffmpeg not found. Install with:  brew install ffmpeg"

/-- `_check_ffmpeg()`: raises when ffmpeg is absent from PATH. -/
def check_ffmpeg (ffmpegPresent : Bool) : Except String Unit :=
  if ffmpegPresent then Except.ok () else Except.error ffmpegMissingMsg

/-- What `make_silence` left at its output path. -/
structure SilenceResult where
  /-- the returned path `f"{idx:05d}_silence.{ext}"` -/
  path : String
  /-- `some d`: ffmpeg generated `d` seconds of silence; `none`: the
  `except` branch wrote the empty placeholder file -/
  generated : Option PyFloat
deriving DecidableEq, Repr

/-- `make_silence(seconds, idx)`.  `ffmpegPresent` is whether
`shutil.which("ffmpeg")` finds the tool; `runSucceeds` is whether the
`subprocess.run` call inside the `try` completes without an exception.
`_check_ffmpeg` runs before the `try` block, so a missing tool raises out
of the function; only failures of the generation subprocess itself are
swallowed by the `except` branch, which writes an empty file. -/
def make_silence (ffmpegPresent runSucceeds : Bool) (seconds : PyFloat)
    (idx : Nat) : Except String SilenceResult :=
  match check_ffmpeg ffmpegPresent with
  | Except.error e => Except.error e
  | Except.ok _ =>
    Except.ok { path := silencePath idx
                generated := if runSucceeds then some seconds else none }

/-! ## The line dispatcher (`main` loop) -/

/-- `try: seconds = float(cell[7:-1]) / except Exception: seconds = 0.5`. -/
def pauseSeconds (mid : String) : PyFloat :=
  (pythonFloat mid).getD (PyFloat.finite (1 / 2))

/-- The text between `[PAUSE=` and the final `]`: `cell[7:-1]`. -/
def pauseMid (c : String) : String := String.mk ((c.data.drop 7).dropLast)

/-- The segments one row of the script contributes, starting at index
`idx`, mirroring one iteration of the `for row in reader` loop:
empty rows, blank single cells, single-cell headers and unmatched single
cells contribute nothing; a `[PAUSE=x]` cell contributes one silence
segment; a `speaker|text` row (unless both fields are empty) contributes
the synthesized line followed by the fixed inter-line pause. -/
def rowSegments (row : List String) (idx : Nat) : List Segment :=
  match row with
  | [] => []
  | [cell0] =>
    if pyStrip cell0 = "" then []
    else if pyStartsWith (pyLower (pyStrip cell0)) "speaker" then []
    else if pyStartsWith (pyStrip cell0) "[PAUSE=" && pyEndsWith (pyStrip cell0) "]" then
      [Segment.silence idx (pauseSeconds (pauseMid (pyStrip cell0)))]
    else []
  | c0 :: c1 :: _ =>
    if pyStrip c0 = "" ∧ stripQuotes (pyStrip c1) = "" then []
    else
      [Segment.dialogue idx (stripQuotes (pyStrip c1)) (resolveVoice (pyStrip c0)),
       Segment.silence (idx + 1) (PyFloat.finite DEFAULT_INTERLINE_PAUSE)]

/-! ## Canonical whitespace shape

Executable predicates describing the shape `re.sub(r"\s+", " ", ·).strip()`
leaves a string in: every whitespace character is a plain space, no two
whitespace characters are adjacent, and neither end is whitespace. -/

/-- Every whitespace character in the list is the plain space. -/
def allWSSpace (l : List Char) : Bool := l.all (fun c => !isPySpace c || c = ' ')

/-- No two adjacent whitespace characters. -/
def noTwoWS : List Char → Bool
  | [] => true
  | [_] => true
  | c :: d :: rest => !(isPySpace c && isPySpace d) && noTwoWS (d :: rest)

/-- The first character, if any, is not whitespace. -/
def headNonWS : List Char → Bool
  | [] => true
  | c :: _ => !isPySpace c

/-- The last character, if any, is not whitespace. -/
def lastNonWS : List Char → Bool
  | [] => true
  | [c] => !isPySpace c
  | _ :: c :: rest => lastNonWS (c :: rest)

/-- The canonical whitespace shape of collapsed-and-stripped text. -/
def wsCanonical (l : List Char) : Bool :=
  allWSSpace l && noTwoWS l && headNonWS l && lastNonWS l

/-- The whole loop from a given starting index: each row's segments are
appended in row order and the index advances once per emitted segment. -/
def runFrom : List (List String) → Nat → List Segment
  | [], _ => []
  | r :: rs, i => rowSegments r i ++ runFrom rs (i + (rowSegments r i).length)

/-- The loop of `main` exactly as the source runs it: a fold over the rows
carrying the accumulated `parts` list and the mutable `idx` counter. -/
def mainFold (rows : List (List String)) : List Segment × Nat :=
  rows.foldl
    (fun acc r => (acc.1 ++ rowSegments r acc.2, acc.2 + (rowSegments r acc.2).length))
    ([], 0)

/-! # Helper lemmas -/

theorem data_append (s t : String) : (s ++ t).data = s.data ++ t.data := by
  obtain ⟨a⟩ := s; obtain ⟨b⟩ := t; rfl

theorem mk_data (s : String) : String.mk s.data = s := by
  obtain ⟨a⟩ := s; rfl

theorem isPrefixOf_append_self (l t : List Char) : l.isPrefixOf (l ++ t) = true := by
  induction l with
  | nil => simp [List.isPrefixOf]
  | cons c l ih => simp [List.isPrefixOf, ih]

theorem isPrefixOf_cons_false (a b : Char) (l m : List Char) (h : (a == b) = false) :
    (a :: l).isPrefixOf (b :: m) = false := by
  simp [List.isPrefixOf, h]

theorem eq_append_of_isPrefixOf (l m : List Char) (h : l.isPrefixOf m = true) :
    ∃ t, m = l ++ t := by
  induction l generalizing m with
  | nil => exact ⟨m, rfl⟩
  | cons c l ih =>
    cases m with
    | nil => simp [List.isPrefixOf] at h
    | cons b m =>
      simp only [List.isPrefixOf, Bool.and_eq_true, beq_iff_eq] at h
      obtain ⟨rfl, h2⟩ := h
      obtain ⟨t, rfl⟩ := ih m h2
      exact ⟨t, rfl⟩

theorem dropWhile_of_headNonWS (l : List Char) (h : headNonWS l = true) :
    l.dropWhile isPySpace = l := by
  cases l with
  | nil => rfl
  | cons c cs =>
    simp only [headNonWS, Bool.not_eq_true'] at h
    simp [List.dropWhile_cons, h]

theorem dropEndWhile_concat (p : Char → Bool) (b : Char) (hb : p b = false) (l : List Char) :
    dropEndWhile p (l ++ [b]) = l ++ [b] := by
  induction l with
  | nil => simp [dropEndWhile, dropEndStep, hb]
  | cons c l ih =>
    rw [List.cons_append]
    simp only [dropEndWhile]
    rw [ih]
    cases l <;> rfl

theorem lastNonWS_concat (l : List Char) (b : Char) :
    lastNonWS (l ++ [b]) = !isPySpace b := by
  induction l with
  | nil => rfl
  | cons c l ih =>
    cases l with
    | nil => rfl
    | cons d l' => simpa [lastNonWS, List.cons_append] using ih

theorem dropEndWhile_of_lastNonWS (l : List Char) (h : lastNonWS l = true) :
    dropEndWhile isPySpace l = l := by
  induction l with
  | nil => rfl
  | cons c l ih =>
    cases l with
    | nil =>
      simp only [lastNonWS, Bool.not_eq_true'] at h
      simp [dropEndWhile, dropEndStep, h]
    | cons d l' =>
      have h' : lastNonWS (d :: l') = true := by simpa [lastNonWS] using h
      show dropEndStep isPySpace c (dropEndWhile isPySpace (d :: l')) = c :: d :: l'
      rw [ih h']
      rfl

theorem pyStrip_eq_self (s : String) (h1 : headNonWS s.data = true)
    (h2 : lastNonWS s.data = true) : pyStrip s = s := by
  unfold pyStrip stripChars
  rw [dropWhile_of_headNonWS _ h1, dropEndWhile_of_lastNonWS _ h2, mk_data]

/-- The dispatcher's action on any row of the exact pause-directive shape,
for an arbitrary middle text `mid`. -/
theorem pause_row_eq (mid : String) (i : Nat) :
    rowSegments ["[PAUSE=" ++ mid ++ "]"] i = [Segment.silence i (pauseSeconds mid)] := by
  have hdata : ("[PAUSE=" ++ mid ++ "]").data = "[PAUSE=".data ++ (mid.data ++ [']']) := by
    rw [data_append, data_append, List.append_assoc]
  have hhead : headNonWS ("[PAUSE=" ++ mid ++ "]").data = true := by
    rw [hdata]; rfl
  have hlast : lastNonWS ("[PAUSE=" ++ mid ++ "]").data = true := by
    rw [hdata, ← List.append_assoc, lastNonWS_concat]; rfl
  have hstrip : pyStrip ("[PAUSE=" ++ mid ++ "]") = "[PAUSE=" ++ mid ++ "]" :=
    pyStrip_eq_self _ hhead hlast
  have hne : ¬("[PAUSE=" ++ mid ++ "]") = "" := by
    intro h
    have := congrArg String.data h
    rw [hdata] at this
    simp at this
  have hlow : (pyLower ("[PAUSE=" ++ mid ++ "]")).data
      = '[' :: (("PAUSE=".data ++ (mid.data ++ [']'])).map Char.toLower) := by
    show (("[PAUSE=" ++ mid ++ "]").data.map Char.toLower) = _
    rw [hdata]
    rfl
  have hheader : pyStartsWith (pyLower ("[PAUSE=" ++ mid ++ "]")) "speaker" = false := by
    show ("speaker".data).isPrefixOf (pyLower ("[PAUSE=" ++ mid ++ "]")).data = false
    rw [hlow]
    exact isPrefixOf_cons_false 's' '[' _ _ rfl
  have hstart : pyStartsWith ("[PAUSE=" ++ mid ++ "]") "[PAUSE=" = true := by
    show ("[PAUSE=".data).isPrefixOf ("[PAUSE=" ++ mid ++ "]").data = true
    rw [hdata]
    exact isPrefixOf_append_self _ _
  have hend : pyEndsWith ("[PAUSE=" ++ mid ++ "]") "]" = true := by
    show ("]".data).isSuffixOf ("[PAUSE=" ++ mid ++ "]").data = true
    unfold List.isSuffixOf
    rw [hdata, ← List.append_assoc]
    rw [List.reverse_append]
    simp [List.isPrefixOf]
  have hmid : pauseMid ("[PAUSE=" ++ mid ++ "]") = mid := by
    unfold pauseMid
    rw [hdata, show (7 : ℕ) = ("[PAUSE=".data).length from rfl, List.drop_left,
      List.dropLast_concat, mk_data]
  simp only [rowSegments, hstrip, hheader, hstart, hend, hmid]
  rw [if_neg hne]
  simp

/-! # Claim C1 -/

/-- Claim C1 (amended): empty rows, single-cell rows that are blank after
stripping, single-cell rows whose lower-cased stripped text starts with
`speaker`, and single-cell rows not matching the pause syntax all emit zero
segments.  (The two-cell row `Speaker|Text` is NOT skipped — see the
counterexample.) -/
theorem c1_ignorable_rows (cell : String) (i : Nat) :
    rowSegments ([] : List String) i = [] ∧
    (pyStrip cell = "" → rowSegments [cell] i = []) ∧
    (pyStartsWith (pyLower (pyStrip cell)) "speaker" = true → rowSegments [cell] i = []) ∧
    ((pyStartsWith (pyStrip cell) "[PAUSE=" && pyEndsWith (pyStrip cell) "]") = false →
      rowSegments [cell] i = []) := by
  refine ⟨rfl, fun h => ?_, fun h => ?_, fun h => ?_⟩
  · simp [rowSegments, h]
  · by_cases h0 : pyStrip cell = "" <;> simp [rowSegments, h0, h]
  · by_cases h0 : pyStrip cell = "" <;>
      by_cases h1 : pyStartsWith (pyLower (pyStrip cell)) "speaker" = true <;>
        simp [rowSegments, h0, h1, h]

/-- Claim C1 counterexample: the two-cell header row `Speaker|Text` is
parsed as a dialogue row (the header check only fires for single-cell
rows), so it emits a dialogue segment and a pause segment, not zero
segments. -/
theorem c1_counterexample :
    rowSegments ["Speaker", "Text"] 0 =
      [Segment.dialogue 0 "Text" "alloy",
       Segment.silence 1 (PyFloat.finite DEFAULT_INTERLINE_PAUSE)] ∧
    rowSegments ["Speaker", "Text"] 0 ≠ ([] : List Segment) := by
  have e : rowSegments ["Speaker", "Text"] 0 =
      [Segment.dialogue 0 "Text" "alloy",
       Segment.silence 1 (PyFloat.finite DEFAULT_INTERLINE_PAUSE)] := rfl
  refine ⟨e, fun h => ?_⟩
  exact List.cons_ne_nil _ _ (e.symm.trans h)

/-- Witness for C1 at concrete ignorable rows. -/
theorem c1_witness :
    rowSegments ["   "] 0 = [] ∧
    rowSegments ["Speaker notes"] 1 = [] ∧
    rowSegments ["hello world?"] 2 = [] :=
  ⟨(c1_ignorable_rows "   " 0).2.1 (by decide),
   (c1_ignorable_rows "Speaker notes" 1).2.2.1 (by decide),
   (c1_ignorable_rows "hello world?" 2).2.2.2 (by decide)⟩

/-! # Claim C2 -/

/-- Claim C2 counterexample: when the external media tool is missing,
`make_silence` raises the configuration error out of `_check_ffmpeg`
(which runs before the `try` block); it does not write a placeholder and
return the segment path. -/
theorem c2_counterexample :
    make_silence false true (PyFloat.finite 1) 0 = Except.error ffmpegMissingMsg ∧
    make_silence false true (PyFloat.finite 1) 0 ≠
      Except.ok { path := silencePath 0, generated := none } := by
  refine ⟨rfl, fun h => ?_⟩
  exact Except.noConfusion ((rfl : make_silence false true (PyFloat.finite 1) 0
    = Except.error ffmpegMissingMsg).symm.trans h)

/-- Claim C2 (amended): when ffmpeg is present, `make_silence` never
aborts: whatever the outcome of the generation subprocess it returns the
segment path, with the empty placeholder written exactly when the
subprocess failed; when ffmpeg is missing, it raises like the
fatal-by-default operations do. -/
theorem c2_silence_failure_policy (runSucceeds : Bool) (d : PyFloat) (i : Nat) :
    make_silence true runSucceeds d i =
      Except.ok { path := silencePath i,
                  generated := if runSucceeds then some d else none } ∧
    make_silence false runSucceeds d i = Except.error ffmpegMissingMsg :=
  ⟨rfl, rfl⟩

/-! # Claim C3 -/

/-- Claim C3: voice resolution is a total function; a speaker whose
upper-cased label is in `VOICE_MAP` resolves to the configured voice, any
other speaker resolves to the `NARRATOR` fallback voice `alloy`, and the
result depends only on the upper-cased label (case-insensitivity). -/
theorem c3_voice_resolution (s : String) :
    (∀ v, VOICE_MAP.lookup (pyUpper s) = some v → resolveVoice s = v) ∧
    (VOICE_MAP.lookup (pyUpper s) = none → resolveVoice s = "alloy") ∧
    VOICE_MAP.lookup "NARRATOR" = some "alloy" ∧
    (∀ t, pyUpper t = pyUpper s → resolveVoice t = resolveVoice s) := by
  refine ⟨fun v h => ?_, fun h => ?_, rfl, fun t h => ?_⟩
  · simp [resolveVoice, h]
  · simp only [resolveVoice, h]
    rfl
  · simp [resolveVoice, h]

/-- Witness for C3: a configured speaker in lower case and an unknown
speaker. -/
theorem c3_witness :
    resolveVoice "becca" = "nova" ∧ resolveVoice "ZEB" = "alloy" :=
  ⟨(c3_voice_resolution "becca").1 "nova" (by decide),
   (c3_voice_resolution "ZEB").2.1 (by decide)⟩

/-! # Claim C4 -/

/-- Claim C4: every well-formed two-cell dialogue row (not both fields
empty after trimming) emits exactly two segments in order: the dialogue
segment, then one inter-line pause segment of `DEFAULT_INTERLINE_PAUSE`
(0.25) seconds. -/
theorem c4_dialogue_row (s t : String) (i : Nat)
    (h : ¬(pyStrip s = "" ∧ stripQuotes (pyStrip t) = "")) :
    rowSegments [s, t] i =
      [Segment.dialogue i (stripQuotes (pyStrip t)) (resolveVoice (pyStrip s)),
       Segment.silence (i + 1) (PyFloat.finite DEFAULT_INTERLINE_PAUSE)] := by
  simp only [rowSegments]
  rw [if_neg h]

/-- Witness for C4 at a concrete dialogue row. -/
theorem c4_witness :
    rowSegments ["NARRATOR", "Hello world"] 0 =
      [Segment.dialogue 0 "Hello world" "alloy",
       Segment.silence 1 (PyFloat.finite DEFAULT_INTERLINE_PAUSE)] := by
  rw [c4_dialogue_row "NARRATOR" "Hello world" 0 (by decide)]
  rfl

/-! # Claim C6 -/

/-- Claim C6: a single-cell row of the exact form `[PAUSE=<mid>]` emits
exactly one silence segment and no dialogue segment: of `d` seconds when
`<mid>` parses as the Python float `d`, and of the fixed default 0.5
seconds when it does not parse. -/
theorem c6_pause_directive (mid : String) (i : Nat) :
    (∀ d, pythonFloat mid = some d →
      rowSegments ["[PAUSE=" ++ mid ++ "]"] i = [Segment.silence i d]) ∧
    (pythonFloat mid = none →
      rowSegments ["[PAUSE=" ++ mid ++ "]"] i
        = [Segment.silence i (PyFloat.finite (1 / 2))]) := by
  constructor
  · intro d hd
    rw [pause_row_eq]
    simp [pauseSeconds, hd]
  · intro hd
    rw [pause_row_eq]
    simp [pauseSeconds, hd]

/-- Witness for C6: a well-formed pause of 2.5 seconds and a malformed
pause falling back to 0.5 seconds. -/
theorem c6_witness :
    rowSegments ["[PAUSE=2.5]"] 0 = [Segment.silence 0 (PyFloat.finite (5 / 2))] ∧
    rowSegments ["[PAUSE=abc]"] 7 = [Segment.silence 7 (PyFloat.finite (1 / 2))] := by
  constructor
  · refine (c6_pause_directive "2.5" 0).1 (PyFloat.finite (5 / 2)) ?_
    have h0 : pythonFloat "2.5" = some (PyFloat.finite ((2 : ℚ) + 5 / 10 ^ 1)) := rfl
    rw [h0]
    norm_num
  · exact (c6_pause_directive "abc" 7).2 (by decide)

/-! # Claim C8 -/

/-- Claim C8 counterexample: the pause duration is not always
non-negative — the well-formed row `[PAUSE=-1]` emits a silence segment
whose duration is the negative value -1, passed through unclamped. -/
theorem c8_counterexample :
    rowSegments ["[PAUSE=-1]"] 0 = [Segment.silence 0 (PyFloat.finite (-1))] ∧
    ¬((0 : ℚ) ≤ -1) := by
  constructor
  · have h := pause_row_eq "-1" 0
    have h0 : pythonFloat "-1" = some (PyFloat.finite (-(1 : ℚ))) := rfl
    have hv : pauseSeconds "-1" = PyFloat.finite (-1) := by
      rw [pauseSeconds, h0, Option.getD_some]
    rw [hv] at h
    exact h
  · norm_num

/-- Claim C8 (amended): the duration of the silence segment emitted for a
pause directive is exactly the parsed value of `<mid>` (of either sign,
unclamped), and the 0.5-second default exactly when parsing fails. -/
theorem c8_pause_duration (mid : String) (i : Nat) :
    rowSegments ["[PAUSE=" ++ mid ++ "]"] i = [Segment.silence i (pauseSeconds mid)] ∧
    pauseSeconds mid = (pythonFloat mid).getD (PyFloat.finite (1 / 2)) :=
  ⟨pause_row_eq mid i, rfl⟩

/-! # Claim C10 -/

/-- Claim C10: a row with two or more cells is processed from its first
two cells only (extra cells are ignored); it is skipped exactly when both
the trimmed speaker and the trimmed, quote-stripped text are empty, and
otherwise treated as a dialogue row. -/
theorem c10_two_cell_rows (c0 c1 : String) (rest : List String) (i : Nat) :
    rowSegments (c0 :: c1 :: rest) i = rowSegments [c0, c1] i ∧
    (pyStrip c0 = "" ∧ stripQuotes (pyStrip c1) = "" →
      rowSegments (c0 :: c1 :: rest) i = []) ∧
    (¬(pyStrip c0 = "" ∧ stripQuotes (pyStrip c1) = "") →
      rowSegments (c0 :: c1 :: rest) i =
        [Segment.dialogue i (stripQuotes (pyStrip c1)) (resolveVoice (pyStrip c0)),
         Segment.silence (i + 1) (PyFloat.finite DEFAULT_INTERLINE_PAUSE)]) := by
  refine ⟨rfl, fun h => ?_, fun h => ?_⟩
  · simp only [rowSegments]
    rw [if_pos h]
  · simp only [rowSegments]
    rw [if_neg h]

/-- Witness for C10: the third cell is ignored; a row with both fields
empty is skipped. -/
theorem c10_witness :
    rowSegments ["NARRATOR", "Hi", "ignored"] 0 = rowSegments ["NARRATOR", "Hi"] 0 ∧
    rowSegments ["", "\"\"", "x"] 3 = ([] : List Segment) :=
  ⟨(c10_two_cell_rows "NARRATOR" "Hi" ["ignored"] 0).1,
   (c10_two_cell_rows "" "\"\"" ["x"] 3).2.1 (by decide)⟩

/-! # Claim C7 -/

theorem rowSegments_indices (r : List String) (i : Nat) :
    (rowSegments r i).map Segment.index = List.range' i (rowSegments r i).length := by
  rcases r with _ | ⟨c0, _ | ⟨c1, rest⟩⟩
  · rfl
  · simp only [rowSegments]
    split_ifs <;> simp [Segment.index, List.range']
  · simp only [rowSegments]
    split_ifs <;> simp [Segment.index, List.range']

theorem runFrom_indices (rows : List (List String)) :
    ∀ i, (runFrom rows i).map Segment.index = List.range' i (runFrom rows i).length := by
  induction rows with
  | nil => intro i; rfl
  | cons r rs ih =>
    intro i
    simp only [runFrom, List.map_append, List.length_append]
    rw [rowSegments_indices, ih,
      Nat.add_comm (rowSegments r i).length
        (runFrom rs (i + (rowSegments r i).length)).length]
    simp

theorem mainFold_general (rows : List (List String)) :
    ∀ (acc : List Segment) (i : Nat),
      List.foldl
        (fun acc r => (acc.1 ++ rowSegments r acc.2, acc.2 + (rowSegments r acc.2).length))
        (acc, i) rows
      = (acc ++ runFrom rows i, i + (runFrom rows i).length) := by
  induction rows with
  | nil => intro acc i; simp [runFrom]
  | cons r rs ih =>
    intro acc i
    simp only [List.foldl_cons, runFrom]
    rw [ih]
    refine Prod.ext ?_ ?_
    · simp [List.append_assoc]
    · simp [List.length_append]
      omega

/-- Claim C7: the accumulated segment list of the main loop is exactly the
concatenation, in row-processing order, of each row's segments; the final
value of the index counter equals the number of emitted segments
(one increment per segment, dialogue and silence alike); and the emitted
segments carry the strictly increasing indices `0, 1, 2, ...` in list
order. -/
theorem c7_ordering_and_indices (rows : List (List String)) :
    (mainFold rows).1 = runFrom rows 0 ∧
    (mainFold rows).2 = (runFrom rows 0).length ∧
    (runFrom rows 0).map Segment.index = List.range' 0 (runFrom rows 0).length := by
  unfold mainFold
  rw [mainFold_general rows [] 0]
  exact ⟨by simp, by simp, runFrom_indices rows 0⟩

/-! # Whitespace-shape lemmas for the normalizer -/

theorem isPySpace_ite (c : Char) :
    isPySpace (if isPySpace c then ' ' else c) = isPySpace c := by
  by_cases h : isPySpace c = true
  · rw [if_pos h, h]; rfl
  · rw [if_neg h]

theorem allWSSpace_cons_of (c : Char) (l : List Char)
    (h : allWSSpace (c :: l) = true) : allWSSpace l = true := by
  simp only [allWSSpace, List.all_cons, Bool.and_eq_true] at h
  exact h.2

theorem noTwoWS_cons_of (c : Char) (l : List Char)
    (h : noTwoWS (c :: l) = true) : noTwoWS l = true := by
  cases l with
  | nil => rfl
  | cons d l' =>
    simp only [noTwoWS, Bool.and_eq_true] at h
    exact h.2

theorem noTwoWS_drop (n : Nat) (l : List Char) (h : noTwoWS l = true) :
    noTwoWS (l.drop n) = true := by
  induction n generalizing l with
  | zero => exact h
  | succ n ih =>
    cases l with
    | nil => rfl
    | cons c cs => exact ih cs (noTwoWS_cons_of c cs h)

theorem lastNonWS_cons_ne (c : Char) (cs : List Char) (h : cs ≠ []) :
    lastNonWS (c :: cs) = lastNonWS cs := by
  cases cs with
  | nil => exact absurd rfl h
  | cons d l => rfl

theorem lastNonWS_drop (n : Nat) (l : List Char) (hne : l.drop n ≠ [])
    (h : lastNonWS l = true) : lastNonWS (l.drop n) = true := by
  induction n generalizing l with
  | zero => exact h
  | succ n ih =>
    cases l with
    | nil => exact absurd rfl hne
    | cons c cs =>
      have hcs : cs ≠ [] := by
        intro he
        rw [List.drop_succ_cons, he, List.drop_nil] at hne
        exact hne rfl
      rw [List.drop_succ_cons] at hne ⊢
      exact ih cs hne ((lastNonWS_cons_ne c cs hcs).symm.trans h)

theorem collapseRuns_head (l : List Char) :
    (collapseRuns l).head? = l.head?.map (fun c => if isPySpace c then ' ' else c) := by
  induction l using collapseRuns.induct with
  | case1 => rfl
  | case2 c => rfl
  | case3 c d rest h ih =>
    simp only [collapseRuns, h, if_true]
    rw [ih]
    simp only [List.head?_cons, Option.map_some', Option.some.injEq]
    simp only [Bool.and_eq_true] at h
    rw [if_pos h.1, if_pos h.2]
  | case4 c d rest h ih =>
    simp only [collapseRuns, h, Bool.false_eq_true, if_false]
    rfl

theorem collapseRuns_allWSSpace (l : List Char) :
    allWSSpace (collapseRuns l) = true := by
  induction l using collapseRuns.induct with
  | case1 => rfl
  | case2 c =>
    by_cases h : isPySpace c = true <;> simp [collapseRuns, allWSSpace, h]
  | case3 c d rest h ih =>
    simpa [collapseRuns, h] using ih
  | case4 c d rest h ih =>
    simp only [collapseRuns, h, Bool.false_eq_true, if_false, allWSSpace,
      List.all_cons, Bool.and_eq_true]
    refine ⟨?_, ih⟩
    by_cases hc : isPySpace c = true
    · rw [if_pos hc]
      rfl
    · rw [if_neg hc]
      simp [hc]

theorem collapseRuns_noTwoWS (l : List Char) :
    noTwoWS (collapseRuns l) = true := by
  induction l using collapseRuns.induct with
  | case1 => rfl
  | case2 c => rfl
  | case3 c d rest h ih =>
    simpa [collapseRuns, h] using ih
  | case4 c d rest h ih =>
    simp only [collapseRuns, h, Bool.false_eq_true, if_false]
    cases hR : collapseRuns (d :: rest) with
    | nil => rfl
    | cons y R =>
      have hy : y = if isPySpace d then ' ' else d := by
        have h0 := collapseRuns_head (d :: rest)
        rw [hR] at h0
        simpa using h0
      have hys : isPySpace y = isPySpace d := by rw [hy, isPySpace_ite]
      have hcd : (isPySpace c && isPySpace d) = false := by
        rcases Bool.eq_false_or_eq_true (isPySpace c && isPySpace d) with h' | h'
        · exact absurd h' h
        · exact h'
      simp only [noTwoWS, Bool.and_eq_true]
      refine ⟨?_, by rw [← hR]; exact ih⟩
      rw [isPySpace_ite c, hys, hcd]
      rfl

theorem noTwoWS_append_left (l t : List Char) (h : noTwoWS (l ++ t) = true) :
    noTwoWS l = true := by
  induction l with
  | nil => rfl
  | cons c l ih =>
    cases l with
    | nil => rfl
    | cons d l' =>
      simp only [List.cons_append, noTwoWS, Bool.and_eq_true] at h ⊢
      exact ⟨h.1, ih (by simpa [List.cons_append, noTwoWS] using h.2)⟩

theorem noTwoWS_dropWhile (p : Char → Bool) (l : List Char) (h : noTwoWS l = true) :
    noTwoWS (l.dropWhile p) = true := by
  induction l with
  | nil => rfl
  | cons c cs ih =>
    by_cases hc : p c = true
    · rw [List.dropWhile_cons_of_pos hc]
      exact ih (noTwoWS_cons_of c cs h)
    · rw [List.dropWhile_cons_of_neg (by simp [hc])]
      exact h

theorem dropEndWhile_append_exists (p : Char → Bool) (l : List Char) :
    ∃ t, dropEndWhile p l ++ t = l := by
  induction l with
  | nil => exact ⟨[], rfl⟩
  | cons c cs ih =>
    obtain ⟨t, ht⟩ := ih
    show ∃ u, dropEndStep p c (dropEndWhile p cs) ++ u = c :: cs
    cases hR : dropEndWhile p cs with
    | nil =>
      by_cases hc : p c = true
      · exact ⟨c :: cs, by simp [dropEndStep, hc]⟩
      · refine ⟨cs, ?_⟩
        simp [dropEndStep, hc]
    | cons y r =>
      refine ⟨t, ?_⟩
      rw [hR] at ht
      simp only [dropEndStep]
      rw [List.cons_append, ht]

theorem noTwoWS_dropEndWhile (p : Char → Bool) (l : List Char) (h : noTwoWS l = true) :
    noTwoWS (dropEndWhile p l) = true := by
  obtain ⟨t, ht⟩ := dropEndWhile_append_exists p l
  exact noTwoWS_append_left _ t (by rw [ht]; exact h)

theorem mem_dropEndWhile (p : Char → Bool) (l : List Char) (a : Char)
    (h : a ∈ dropEndWhile p l) : a ∈ l := by
  obtain ⟨t, ht⟩ := dropEndWhile_append_exists p l
  rw [← ht]
  exact List.mem_append_left t h

theorem allWSSpace_of_sub (l m : List Char) (hsub : ∀ a, a ∈ m → a ∈ l)
    (h : allWSSpace l = true) : allWSSpace m = true := by
  simp only [allWSSpace, List.all_eq_true] at h ⊢
  exact fun a ha => h a (hsub a ha)

theorem headNonWS_dropWhile (l : List Char) :
    headNonWS (l.dropWhile isPySpace) = true := by
  induction l with
  | nil => rfl
  | cons c cs ih =>
    by_cases hc : isPySpace c = true
    · rw [List.dropWhile_cons_of_pos hc]; exact ih
    · rw [List.dropWhile_cons_of_neg (by simp [hc])]
      simp [headNonWS, hc]

theorem headNonWS_dropEndWhile (p : Char → Bool) (l : List Char)
    (h : headNonWS l = true) : headNonWS (dropEndWhile p l) = true := by
  cases l with
  | nil => rfl
  | cons c cs =>
    show headNonWS (dropEndStep p c (dropEndWhile p cs)) = true
    cases dropEndWhile p cs with
    | nil =>
      by_cases hc : p c = true
      · simp [dropEndStep, hc, headNonWS]
      · simp only [dropEndStep, if_neg hc]
        simpa [headNonWS] using h
    | cons y r => simpa [dropEndStep, headNonWS] using h

theorem lastNonWS_dropEndWhile (l : List Char) :
    lastNonWS (dropEndWhile isPySpace l) = true := by
  induction l with
  | nil => rfl
  | cons c cs ih =>
    show lastNonWS (dropEndStep isPySpace c (dropEndWhile isPySpace cs)) = true
    cases hR : dropEndWhile isPySpace cs with
    | nil =>
      by_cases hc : isPySpace c = true <;> simp [dropEndStep, hc, lastNonWS]
    | cons y r =>
      rw [hR] at ih
      simpa [dropEndStep, lastNonWS_cons_ne c (y :: r) (by simp)] using ih

theorem wsCanonical_stripChars_collapse (l : List Char) :
    wsCanonical (stripChars (collapseRuns l)) = true := by
  have hall : allWSSpace (stripChars (collapseRuns l)) = true := by
    refine allWSSpace_of_sub _ _ (fun a ha => ?_) (collapseRuns_allWSSpace l)
    exact (List.dropWhile_sublist _).mem (mem_dropEndWhile _ _ a ha)
  have htwo : noTwoWS (stripChars (collapseRuns l)) = true :=
    noTwoWS_dropEndWhile _ _ (noTwoWS_dropWhile _ _ (collapseRuns_noTwoWS l))
  have hhead : headNonWS (stripChars (collapseRuns l)) = true :=
    headNonWS_dropEndWhile _ _ (headNonWS_dropWhile _)
  have hlast : lastNonWS (stripChars (collapseRuns l)) = true :=
    lastNonWS_dropEndWhile _
  simp [wsCanonical, hall, htwo, hhead, hlast]

theorem ite_space_eq_self (c : Char) (hall : (!isPySpace c || c = ' ') = true) :
    (if isPySpace c then ' ' else c) = c := by
  by_cases hc : isPySpace c = true
  · rw [if_pos hc]
    rw [hc] at hall
    have h0 : c = ' ' := by simpa using hall
    exact h0.symm
  · rw [if_neg hc]

theorem collapseRuns_of_canonical (l : List Char) (hall : allWSSpace l = true)
    (htwo : noTwoWS l = true) : collapseRuns l = l := by
  induction l using collapseRuns.induct with
  | case1 => rfl
  | case2 c =>
    simp only [collapseRuns, List.cons.injEq, and_true]
    exact ite_space_eq_self c (by simpa [allWSSpace] using hall)
  | case3 c d rest h ih =>
    have hcd : (isPySpace c && isPySpace d) = false := by
      have h0 := htwo
      simp only [noTwoWS, Bool.and_eq_true, Bool.not_eq_true'] at h0
      exact h0.1
    rw [hcd] at h
    exact absurd h Bool.false_ne_true
  | case4 c d rest h ih =>
    simp only [collapseRuns, h, Bool.false_eq_true, if_false, List.cons.injEq]
    refine ⟨ite_space_eq_self c ?_, ih (allWSSpace_cons_of _ _ hall) (noTwoWS_cons_of _ _ htwo)⟩
    have h0 := hall
    simp only [allWSSpace, List.all_cons, Bool.and_eq_true] at h0
    exact h0.1

theorem stripChars_of_canonical (l : List Char) (hhead : headNonWS l = true)
    (hlast : lastNonWS l = true) : stripChars l = l := by
  unfold stripChars
  rw [dropWhile_of_headNonWS _ hhead, dropEndWhile_of_lastNonWS _ hlast]

/-! # Lemmas about the alias substitution scan -/

theorem bool_eq_false {b : Bool} (h : ¬(b = true)) : b = false := by
  rcases Bool.eq_false_or_eq_true b with h' | h'
  · exact absurd h' h
  · exact h'

theorem subAux_nil (prev : Option Char) : subALIEAux prev [] = [] := by
  simp only [subALIEAux]

theorem subAux_pos (prev : Option Char) (c : Char) (cs : List Char)
    (h : matchHere prev (c :: cs) = true) :
    subALIEAux prev (c :: cs) = aliasRep ++ subALIEAux (some '.') (cs.drop 7) := by
  simp only [subALIEAux]
  rw [if_pos h]

theorem subAux_neg (prev : Option Char) (c : Char) (cs : List Char)
    (h : matchHere prev (c :: cs) = false) :
    subALIEAux prev (c :: cs) = c :: subALIEAux (some c) cs := by
  simp only [subALIEAux]
  rw [if_neg (by simp [h])]

theorem subAux_ne_nil (prev : Option Char) (l : List Char) (h : l ≠ []) :
    subALIEAux prev l ≠ [] := by
  cases l with
  | nil => exact absurd rfl h
  | cons c cs =>
    by_cases hm : matchHere prev (c :: cs) = true
    · rw [subAux_pos _ _ _ hm]
      simp [aliasRep]
    · rw [subAux_neg _ _ _ (bool_eq_false hm)]
      simp

theorem subAux_head (prev : Option Char) (l : List Char) :
    (subALIEAux prev l).head? = l.head? ∨ (subALIEAux prev l).head? = some 'A' := by
  cases l with
  | nil =>
    rw [subAux_nil]
    exact Or.inl rfl
  | cons c cs =>
    by_cases hm : matchHere prev (c :: cs) = true
    · rw [subAux_pos _ _ _ hm]
      exact Or.inr rfl
    · rw [subAux_neg _ _ _ (bool_eq_false hm)]
      exact Or.inl rfl

theorem subAux_mem : ∀ (prev : Option Char) (l : List Char) (a : Char),
    a ∈ subALIEAux prev l → a ∈ l ∨ a ∈ aliasRep := by
  intro prev l
  induction prev, l using subALIEAux.induct with
  | case1 prev =>
    intro a h
    rw [subAux_nil] at h
    exact absurd h (List.not_mem_nil a)
  | case2 prev c cs hm ih =>
    intro a h
    rw [subAux_pos _ _ _ hm] at h
    rcases List.mem_append.mp h with h1 | h1
    · exact Or.inr h1
    · rcases ih a h1 with h2 | h2
      · exact Or.inl (List.mem_cons_of_mem c (List.drop_subset 7 cs h2))
      · exact Or.inr h2
  | case3 prev c cs hm ih =>
    intro a h
    rw [subAux_neg _ _ _ (bool_eq_false hm)] at h
    rcases List.mem_cons.mp h with h1 | h1
    · exact Or.inl (h1 ▸ List.mem_cons_self c cs)
    · rcases ih a h1 with h2 | h2
      · exact Or.inl (List.mem_cons_of_mem c h2)
      · exact Or.inr h2

theorem noTwoWS_append_allNonWS (A M : List Char)
    (hA : ∀ a ∈ A, isPySpace a = false) (hM : noTwoWS M = true) :
    noTwoWS (A ++ M) = true := by
  induction A with
  | nil => exact hM
  | cons a A' ih =>
    have hA' : ∀ x ∈ A', isPySpace x = false := fun x hx => hA x (List.mem_cons_of_mem a hx)
    have ha : isPySpace a = false := hA a (List.mem_cons_self a A')
    rw [List.cons_append]
    cases hZ : A' ++ M with
    | nil => rfl
    | cons z Z =>
      simp only [noTwoWS, Bool.and_eq_true]
      refine ⟨by rw [ha]; rfl, by rw [← hZ]; exact ih hA'⟩

theorem subAux_noTwo : ∀ (prev : Option Char) (l : List Char),
    noTwoWS l = true → noTwoWS (subALIEAux prev l) = true := by
  intro prev l
  induction prev, l using subALIEAux.induct with
  | case1 prev =>
    intro _
    rw [subAux_nil]
    rfl
  | case2 prev c cs hm ih =>
    intro h
    rw [subAux_pos _ _ _ hm]
    refine noTwoWS_append_allNonWS aliasRep _ (by decide) ?_
    exact ih (noTwoWS_drop 7 cs (noTwoWS_cons_of _ _ h))
  | case3 prev c cs hm ih =>
    intro h
    rw [subAux_neg _ _ _ (bool_eq_false hm)]
    have hM := ih (noTwoWS_cons_of _ _ h)
    cases hM' : subALIEAux (some c) cs with
    | nil => rfl
    | cons y R =>
      simp only [noTwoWS, Bool.and_eq_true]
      refine ⟨?_, by rw [← hM']; exact hM⟩
      rcases subAux_head (some c) cs with hh | hh
      · rw [hM'] at hh
        cases cs with
        | nil =>
          rw [subAux_nil] at hM'
          exact absurd hM' (by simp)
        | cons d cs' =>
          have hyd : y = d := by simpa using hh
          subst hyd
          have h0 := h
          simp only [noTwoWS, Bool.and_eq_true] at h0
          exact h0.1
      · rw [hM'] at hh
        have hyA : y = 'A' := by simpa using hh
        subst hyA
        rw [show isPySpace 'A' = false from rfl]
        rw [Bool.and_false]
        rfl

theorem subAux_headNonWS (prev : Option Char) (l : List Char)
    (h : headNonWS l = true) : headNonWS (subALIEAux prev l) = true := by
  rcases subAux_head prev l with hh | hh
  · cases hM : subALIEAux prev l with
    | nil => rfl
    | cons y R =>
      rw [hM] at hh
      cases l with
      | nil =>
        rw [subAux_nil] at hM
        exact absurd hM (by simp)
      | cons c cs =>
        have hyc : y = c := by simpa using hh
        subst hyc
        simpa [headNonWS] using h
  · cases hM : subALIEAux prev l with
    | nil => rfl
    | cons y R =>
      rw [hM] at hh
      have hyA : y = 'A' := by simpa using hh
      subst hyA
      rfl

theorem lastNonWS_append_ne (A M : List Char) (h : M ≠ []) :
    lastNonWS (A ++ M) = lastNonWS M := by
  induction A with
  | nil => rfl
  | cons a A' ih =>
    rw [List.cons_append,
      lastNonWS_cons_ne a (A' ++ M) (by
        intro he
        exact h (List.append_eq_nil.mp he).2),
      ih]

theorem subAux_lastNonWS : ∀ (prev : Option Char) (l : List Char),
    lastNonWS l = true → lastNonWS (subALIEAux prev l) = true := by
  intro prev l
  induction prev, l using subALIEAux.induct with
  | case1 prev =>
    intro _
    rw [subAux_nil]
    rfl
  | case2 prev c cs hm ih =>
    intro h
    rw [subAux_pos _ _ _ hm]
    have hba : boundaryAfter ((c :: cs).drop 8) = true := by
      simp only [matchHere, Bool.and_eq_true] at hm
      exact hm.2
    rw [List.drop_succ_cons] at hba
    have hne : cs.drop 7 ≠ [] := by
      intro he
      rw [he] at hba
      exact Bool.false_ne_true hba
    have hcs : cs ≠ [] := by
      intro he
      rw [he, List.drop_nil] at hne
      exact hne rfl
    have hlast : lastNonWS (cs.drop 7) = true :=
      lastNonWS_drop 7 cs hne ((lastNonWS_cons_ne c cs hcs).symm.trans h)
    have hMne : subALIEAux (some '.') (cs.drop 7) ≠ [] := subAux_ne_nil _ _ hne
    rw [lastNonWS_append_ne _ _ hMne]
    exact ih hlast
  | case3 prev c cs hm ih =>
    intro h
    rw [subAux_neg _ _ _ (bool_eq_false hm)]
    cases cs with
    | nil =>
      rw [subAux_nil]
      exact h
    | cons d cs' =>
      have hMne : subALIEAux (some c) (d :: cs') ≠ [] := subAux_ne_nil _ _ (by simp)
      rw [lastNonWS_cons_ne _ _ hMne]
      exact ih ((lastNonWS_cons_ne c (d :: cs') (by simp)).symm.trans h)

theorem subAux_allWS (prev : Option Char) (l : List Char)
    (h : allWSSpace l = true) : allWSSpace (subALIEAux prev l) = true := by
  simp only [allWSSpace, List.all_eq_true] at h ⊢
  intro a ha
  rcases subAux_mem prev l a ha with h1 | h1
  · exact h a h1
  · have h2 : isPySpace a = false := by
      simp only [aliasRep, List.mem_cons, List.not_mem_nil, or_false] at h1
      rcases h1 with rfl | rfl | rfl | rfl | rfl <;> rfl
    rw [h2]
    rfl

theorem subAux_cons_eq (q : Option Char) (m : List Char) (w : Char) (t : List Char)
    (hw : w ≠ 'A') (h : subALIEAux q m = w :: t) :
    ∃ m', m = w :: m' ∧ t = subALIEAux (some w) m' := by
  cases m with
  | nil =>
    rw [subAux_nil] at h
    exact absurd h (by simp)
  | cons c cs =>
    by_cases hm : matchHere q (c :: cs) = true
    · rw [subAux_pos _ _ _ hm] at h
      have hA : 'A' = w := by
        have h0 := congrArg List.head? h
        simpa [aliasRep] using h0
      exact absurd hA.symm hw
    · rw [subAux_neg _ _ _ (bool_eq_false hm)] at h
      have hc : c = w := by
        have h0 := congrArg List.head? h
        simpa using h0
      subst hc
      refine ⟨cs, rfl, ?_⟩
      have h0 := congrArg List.tail h
      simpa using h0.symm

theorem subAux_scan_append (ws : List Char) (w : Char)
    (hws : ∀ a ∈ ws, a ≠ 'A') (hw : w ≠ 'A') :
    ∀ (q : Option Char) (m t : List Char),
      subALIEAux q m = (ws ++ [w]) ++ t →
      ∃ m', m = (ws ++ [w]) ++ m' ∧ t = subALIEAux (some w) m' := by
  induction ws with
  | nil =>
    intro q m t h
    obtain ⟨m', h1, h2⟩ := subAux_cons_eq q m w t hw (by simpa using h)
    exact ⟨m', by simpa using h1, h2⟩
  | cons a ws' ih =>
    intro q m t h
    have ha : a ≠ 'A' := hws a (List.mem_cons_self a ws')
    obtain ⟨m1, hm1, ht1⟩ :=
      subAux_cons_eq q m a ((ws' ++ [w]) ++ t) ha (by simpa using h)
    obtain ⟨m', hm', ht'⟩ :=
      ih (fun x hx => hws x (List.mem_cons_of_mem a hx)) (some a) m1 t ht1.symm
    refine ⟨m', ?_, ht'⟩
    rw [hm1, hm']
    simp

theorem subAux_idem : ∀ (n : Nat) (l : List Char), l.length ≤ n →
    ∀ (p p' : Option Char),
      (boundaryBefore p' = true → boundaryBefore p = true) →
      subALIEAux p' (subALIEAux p l) = subALIEAux p l := by
  intro n
  induction n with
  | zero =>
    intro l hl p p' _
    have hnil : l = [] := List.eq_nil_of_length_eq_zero (Nat.le_zero.mp hl)
    subst hnil
    rw [subAux_nil, subAux_nil]
  | succ n ih =>
    intro l hl p p' hpp
    cases l with
    | nil => rw [subAux_nil, subAux_nil]
    | cons c cs =>
      have hcs : cs.length ≤ n := by
        simp only [List.length_cons] at hl
        omega
      by_cases hm : matchHere p (c :: cs) = true
      · rw [subAux_pos _ _ _ hm]
        have hdrop : (cs.drop 7).length ≤ n := by
          rw [List.length_drop]
          omega
        have h1 : matchHere p'
            ('A' :: 'l' :: 'l' :: 'i' :: 'e' :: subALIEAux (some '.') (cs.drop 7)) = false := by
          simp [matchHere, aliasPat, List.isPrefixOf, show ('.' == 'l') = false from rfl]
        have h2 : matchHere (some 'A')
            ('l' :: 'l' :: 'i' :: 'e' :: subALIEAux (some '.') (cs.drop 7)) = false := by
          simp [matchHere, aliasPat, List.isPrefixOf, show ('A' == 'l') = false from rfl]
        have h3 : matchHere (some 'l')
            ('l' :: 'i' :: 'e' :: subALIEAux (some '.') (cs.drop 7)) = false := by
          simp [matchHere, aliasPat, List.isPrefixOf, show ('A' == 'l') = false from rfl]
        have h4 : matchHere (some 'l')
            ('i' :: 'e' :: subALIEAux (some '.') (cs.drop 7)) = false := by
          simp [matchHere, aliasPat, List.isPrefixOf, show ('A' == 'i') = false from rfl]
        have h5 : matchHere (some 'i')
            ('e' :: subALIEAux (some '.') (cs.drop 7)) = false := by
          simp [matchHere, aliasPat, List.isPrefixOf, show ('A' == 'e') = false from rfl]
        show subALIEAux p'
            ('A' :: 'l' :: 'l' :: 'i' :: 'e' :: subALIEAux (some '.') (cs.drop 7))
          = 'A' :: 'l' :: 'l' :: 'i' :: 'e' :: subALIEAux (some '.') (cs.drop 7)
        rw [subAux_neg _ _ _ h1, subAux_neg _ _ _ h2, subAux_neg _ _ _ h3,
          subAux_neg _ _ _ h4, subAux_neg _ _ _ h5]
        simp only [List.cons.injEq, true_and]
        exact ih (cs.drop 7) hdrop (some '.') (some 'e')
          (fun hfalse => absurd hfalse (by decide))
      · have hm' : matchHere p (c :: cs) = false := bool_eq_false hm
        rw [subAux_neg _ _ _ hm']
        have hneg2 : matchHere p' (c :: subALIEAux (some c) cs) = false := by
          by_cases hbb : boundaryBefore p' = true
          · have hb : boundaryBefore p = true := hpp hbb
            rcases Bool.eq_false_or_eq_true
              (aliasPat.isPrefixOf (c :: subALIEAux (some c) cs)) with hpre | hpre
            · obtain ⟨t, ht⟩ := eq_append_of_isPrefixOf _ _ hpre
              have hcA : c = 'A' := by
                have h0 := congrArg List.head? ht
                simpa [aliasPat] using h0
              subst hcA
              have hMt : subALIEAux (some 'A') cs
                  = (['.', 'L', '.', 'I', '.', 'E'] ++ ['.']) ++ t := by
                have h0 := congrArg List.tail ht
                simpa [aliasPat] using h0
              obtain ⟨m', hcs', ht'⟩ :=
                subAux_scan_append ['.', 'L', '.', 'I', '.', 'E'] '.'
                  (by decide) (by decide) (some 'A') cs t hMt
              have hpre1 : aliasPat.isPrefixOf ('A' :: cs) = true := by
                rw [hcs']
                exact isPrefixOf_append_self aliasPat m'
              have hafter1 : boundaryAfter (('A' :: cs).drop 8) = false := by
                simp only [matchHere, hb, hpre1, Bool.true_and] at hm'
                exact hm'
              have hdrop8 : ('A' :: cs).drop 8 = m' := by
                rw [hcs']
                have e : ('A' :: ((['.', 'L', '.', 'I', '.', 'E'] ++ ['.']) ++ m'))
                    = aliasPat ++ m' := rfl
                rw [e, show (8 : ℕ) = aliasPat.length from rfl, List.drop_left]
              rw [hdrop8] at hafter1
              have hdrop8' : ('A' :: subALIEAux (some 'A') cs).drop 8
                  = subALIEAux (some '.') m' := by
                have e : ('A' :: subALIEAux (some 'A') cs) = aliasPat ++ t := ht
                rw [e, show (8 : ℕ) = aliasPat.length from rfl, List.drop_left]
                exact ht'
              have hfin : boundaryAfter
                  (('A' :: subALIEAux (some 'A') cs).drop 8) = false := by
                rw [hdrop8']
                cases m' with
                | nil =>
                  rw [subAux_nil]
                  rfl
                | cons d ds =>
                  have hwd : wordChar d = false := by
                    simpa [boundaryAfter] using hafter1
                  have hne : ('A' == d) = false := by
                    rcases Bool.eq_false_or_eq_true ('A' == d) with he | he
                    · have hdA : d = 'A' := (beq_iff_eq.mp he).symm
                      rw [hdA] at hwd
                      exact absurd hwd (by decide)
                    · exact he
                  have hdA : matchHere (some '.') (d :: ds) = false := by
                    simp [matchHere, aliasPat, List.isPrefixOf, hne]
                  rw [subAux_neg _ _ _ hdA]
                  simpa [boundaryAfter] using hwd
              show (boundaryBefore p'
                  && aliasPat.isPrefixOf ('A' :: subALIEAux (some 'A') cs)
                  && boundaryAfter (('A' :: subALIEAux (some 'A') cs).drop 8)) = false
              rw [hfin, Bool.and_false]
            · show (boundaryBefore p'
                  && aliasPat.isPrefixOf (c :: subALIEAux (some c) cs)
                  && boundaryAfter ((c :: subALIEAux (some c) cs).drop 8)) = false
              rw [hpre, Bool.and_false, Bool.false_and]
          · show (boundaryBefore p'
                && aliasPat.isPrefixOf (c :: subALIEAux (some c) cs)
                && boundaryAfter ((c :: subALIEAux (some c) cs).drop 8)) = false
            rw [bool_eq_false hbb, Bool.false_and, Bool.false_and]
        rw [subAux_neg _ _ _ hneg2]
        simp only [List.cons.injEq, true_and]
        exact ih cs hcs (some c) (some c) (fun h => h)

/-! # Content preservation of the whitespace stage -/

theorem filter_ite_space (c : Char) :
    List.filter (fun c => !isPySpace c) [if isPySpace c then ' ' else c]
      = List.filter (fun c => !isPySpace c) [c] := by
  by_cases hc : isPySpace c = true
  · rw [if_pos hc]
    have h1 : (!isPySpace ' ') = false := rfl
    have h2 : (!isPySpace c) = false := by rw [hc]; rfl
    simp [List.filter_cons, h1, h2]
  · rw [if_neg hc]

theorem collapseRuns_filter (l : List Char) :
    (collapseRuns l).filter (fun c => !isPySpace c)
      = l.filter (fun c => !isPySpace c) := by
  induction l using collapseRuns.induct with
  | case1 => rfl
  | case2 c => exact filter_ite_space c
  | case3 c d rest h ih =>
    simp only [collapseRuns, h, if_true]
    rw [ih]
    simp only [Bool.and_eq_true] at h
    have h2 : (!isPySpace c) = false := by rw [h.1]; rfl
    conv_rhs => rw [List.filter_cons]
    rw [h2]
    simp
  | case4 c d rest h ih =>
    simp only [collapseRuns, h, Bool.false_eq_true, if_false]
    by_cases hc : isPySpace c = true
    · have h1 : (!isPySpace ' ') = false := rfl
      have h2 : (!isPySpace c) = false := by rw [hc]; rfl
      rw [if_pos hc]
      simp [List.filter_cons, h1, h2, ih]
    · rw [if_neg hc]
      have h2 : (!isPySpace c) = true := by rw [bool_eq_false hc]; rfl
      simp [List.filter_cons, h2, ih]

theorem dropWhile_filter (l : List Char) :
    (l.dropWhile isPySpace).filter (fun c => !isPySpace c)
      = l.filter (fun c => !isPySpace c) := by
  induction l with
  | nil => rfl
  | cons c cs ih =>
    by_cases hc : isPySpace c = true
    · have h2 : (!isPySpace c) = false := by rw [hc]; rfl
      rw [List.dropWhile_cons_of_pos hc]
      simp [List.filter_cons, h2, ih]
    · rw [List.dropWhile_cons_of_neg (by simpa using hc)]

theorem dropEndWhile_filter (l : List Char) :
    (dropEndWhile isPySpace l).filter (fun c => !isPySpace c)
      = l.filter (fun c => !isPySpace c) := by
  induction l with
  | nil => rfl
  | cons c cs ih =>
    show (dropEndStep isPySpace c (dropEndWhile isPySpace cs)).filter _ = _
    cases hR : dropEndWhile isPySpace cs with
    | nil =>
      rw [hR] at ih
      have hcs : cs.filter (fun c => !isPySpace c) = [] := ih.symm
      by_cases hc : isPySpace c = true
      · have h2 : (!isPySpace c) = false := by rw [hc]; rfl
        simp [dropEndStep, hc, List.filter_cons, h2, hcs]
      · have h2 : (!isPySpace c) = true := by rw [bool_eq_false hc]; rfl
        simp [dropEndStep, hc, List.filter_cons, h2, hcs]
    | cons y r =>
      rw [hR] at ih
      simp only [dropEndStep]
      rw [List.filter_cons, ih]
      conv_rhs => rw [List.filter_cons]

theorem stripChars_collapse_filter (l : List Char) :
    (stripChars (collapseRuns l)).filter (fun c => !isPySpace c)
      = l.filter (fun c => !isPySpace c) := by
  unfold stripChars
  rw [dropEndWhile_filter, dropWhile_filter, collapseRuns_filter]

/-! # Claim C5 -/

/-- Claim C5: the pronunciation normalizer is idempotent:
`normalize_text (normalize_text x) = normalize_text x` for every string. -/
theorem c5_normalize_idempotent (x : String) :
    normalize_text (normalize_text x) = normalize_text x := by
  have hy := wsCanonical_stripChars_collapse x.data
  simp only [wsCanonical, Bool.and_eq_true] at hy
  obtain ⟨⟨⟨hall, htwo⟩, hhead⟩, hlast⟩ := hy
  have hallz := subAux_allWS none (stripChars (collapseRuns x.data)) hall
  have htwoz := subAux_noTwo none (stripChars (collapseRuns x.data)) htwo
  have hheadz := subAux_headNonWS none (stripChars (collapseRuns x.data)) hhead
  have hlastz := subAux_lastNonWS none (stripChars (collapseRuns x.data)) hlast
  have hc : collapseRuns (subALIEAux none (stripChars (collapseRuns x.data)))
      = subALIEAux none (stripChars (collapseRuns x.data)) :=
    collapseRuns_of_canonical _ hallz htwoz
  have hs : stripChars (subALIEAux none (stripChars (collapseRuns x.data)))
      = subALIEAux none (stripChars (collapseRuns x.data)) :=
    stripChars_of_canonical _ hheadz hlastz
  show String.mk (subALIEAux none
      (stripChars (collapseRuns (subALIEAux none (stripChars (collapseRuns x.data))))))
    = String.mk (subALIEAux none (stripChars (collapseRuns x.data)))
  rw [hc, hs]
  exact congrArg String.mk
    (subAux_idem (stripChars (collapseRuns x.data)).length _ le_rfl none none (fun h => h))

/-! # Claim C9 -/

/-- Claim C9: `normalize_text` is the composition of the whitespace stage
(collapse every whitespace run, then strip both ends) with the alias
substitutions applied in table order; the whitespace stage only rewrites
whitespace (the non-whitespace characters are untouched, in order) and
leaves the text in canonical shape (all whitespace is single interior
spaces), and the final result is in canonical shape as well.  The function
is a pure Lean function, hence deterministic and side-effect-free. -/
theorem c9_normalize_structure (x : String) :
    normalize_text x
      = PRONUNCIATION_ALIASES.foldl (fun acc f => f acc)
          (pyStrip (String.mk (collapseRuns x.data))) ∧
    normalize_text x = subALIE (String.mk (stripChars (collapseRuns x.data))) ∧
    (stripChars (collapseRuns x.data)).filter (fun c => !isPySpace c)
      = x.data.filter (fun c => !isPySpace c) ∧
    wsCanonical (stripChars (collapseRuns x.data)) = true ∧
    wsCanonical (normalize_text x).data = true := by
  refine ⟨rfl, rfl, stripChars_collapse_filter x.data,
    wsCanonical_stripChars_collapse x.data, ?_⟩
  have hy := wsCanonical_stripChars_collapse x.data
  simp only [wsCanonical, Bool.and_eq_true] at hy
  obtain ⟨⟨⟨hall, htwo⟩, hhead⟩, hlast⟩ := hy
  have hallz := subAux_allWS none (stripChars (collapseRuns x.data)) hall
  have htwoz := subAux_noTwo none (stripChars (collapseRuns x.data)) htwo
  have hheadz := subAux_headNonWS none (stripChars (collapseRuns x.data)) hhead
  have hlastz := subAux_lastNonWS none (stripChars (collapseRuns x.data)) hlast
  show wsCanonical (subALIEAux none (stripChars (collapseRuns x.data))) = true
  simp only [wsCanonical, Bool.and_eq_true]
  exact ⟨⟨⟨hallz, htwoz⟩, hheadz⟩, hlastz⟩

end TTS
